import Mathlib

/-!
Verification of the line-oriented exam-document parser (`src/info/convert.py`)
and the id re-indexing utility (`src/info/id_corrector.py`).

Strings are modelled as lists of characters (`Str`).  Python's line-level
operations (`rstrip`, `strip`, the three regexes, `re.sub(r'\s+', ' ', ...)`)
are translated directly; the parser `parse_text` is a fold of a per-line step
function over the split lines, with the mutable Python state captured in an
explicit `PState` structure.
-/

namespace Convert

/-- Character strings, modelled as lists of characters. -/
abbrev Str := List Char

/-- The whitespace class used by Python's `str.strip`/`str.rstrip` and the
regex class in the source's patterns (ASCII part). -/
def isSpace (c : Char) : Bool :=
  c = ' ' || c = '\t' || c = '\n' || c = '\r' || c = '\x0b' || c = '\x0c'

/-- Python `str.lstrip()`: drop leading whitespace. -/
def lstrip (l : Str) : Str := l.dropWhile isSpace

/-- Python `str.rstrip()`: drop trailing whitespace. -/
def rstrip (l : Str) : Str := (l.reverse.dropWhile isSpace).reverse

/-- Python `str.strip()`: drop whitespace on both ends. -/
def strip (l : Str) : Str := rstrip (lstrip l)

/-- Matcher for `YEAR_RE = r'^\s*(\d{4})\s*$'` (src/info/convert.py line 24):
returns the captured 4-digit group when the whole line, ignoring surrounding
whitespace, is exactly four digits. -/
def matchYear (line : Str) : Option Str :=
  let t := strip line
  if t.length = 4 && t.all Char.isDigit then some t else none

/-- Matcher for `QSTART_RE = r'^\s*(\d+)\.\s*(.*\S)?\s*$'` (line 25): after
leading whitespace, a maximal nonempty digit run immediately followed by a
period; captures the digit run and the stripped remainder (group 2, with the
source's subsequent `.strip()` folded in, which is a no-op on it). -/
def matchQStart (line : Str) : Option (Str × Str) :=
  let t := lstrip line
  let ds := t.takeWhile Char.isDigit
  match t.dropWhile Char.isDigit with
  | p :: rest => if p = '.' && !ds.isEmpty then some (ds, strip rest) else none
  | [] => none

/-- Matcher for `OPT_RE = r'^\s*\(?([a-d])[\).]\s*(.*\S)?\s*$'` (line 26):
after leading whitespace, an optional opening parenthesis, a lowercase letter
`a`-`d`, a closing parenthesis or period, then the stripped remainder.
`dropParen` is the effect of the optional `\(?`: when the opening parenthesis
is absent the letter must be the first character itself. -/
def dropParen : Str → Str
  | [] => []
  | h :: r => if h = '(' then r else h :: r

def matchOpt (line : Str) : Option (Char × Str) :=
  match dropParen (lstrip line) with
  | c :: d :: rest =>
    if ('a' ≤ c && c ≤ 'd') && (d = ')' || d = '.') then some (c, strip rest)
    else none
  | _ => none

/-- Loop body of `finalize_question_text` (lines 45-53): collapse runs of
blank lines to one empty line and right-strip nonblank lines, the boolean
tracking the source's `prev_blank` flag. -/
def collapseLoop : List Str → Bool → List Str
  | [], _ => []
  | ln :: ls, prevBlank =>
    if (strip ln).isEmpty then
      (if prevBlank then [] else [[]]) ++ collapseLoop ls true
    else
      rstrip ln :: collapseLoop ls false

/-- Drop leading and trailing fully-blank lines (the two `while` loops of
`finalize_question_text`, lines 41-44). -/
def trimBlanks (ls : List Str) : List Str :=
  (((ls.dropWhile fun l => (strip l).isEmpty).reverse.dropWhile
      fun l => (strip l).isEmpty)).reverse

/-- Join lines with a newline character (`"\n".join(out)`). -/
def joinNL : List Str → Str
  | [] => []
  | [l] => l
  | l :: ls => l ++ '\n' :: joinNL ls

/-- `finalize_question_text` (src/info/convert.py lines 40-54). -/
def finalize_question_text (lines : List Str) : Str :=
  joinNL (collapseLoop (trimBlanks lines) false)

/-- Loop underlying `re.sub(r'\s+', ' ', s)`: replace each whitespace run by
a single space. -/
def squeezeLoop : Str → Bool → Str
  | [], _ => []
  | c :: cs, prevWS =>
    if isSpace c then (if prevWS then [] else [' ']) ++ squeezeLoop cs true
    else c :: squeezeLoop cs false

/-- `normalize_inline` (lines 56-57): `re.sub(r'\s+', ' ', s).strip()`. -/
def normalize_inline (s : Str) : Str := strip (squeezeLoop s false)

/-- An emitted question record (the dict built in `flush_question`,
lines 156-163). -/
structure Record where
  id : Str
  question : Str
  options : List Str
  answer : Str
  explanation : Str
  difficulty : Str
deriving DecidableEq, Repr

/-- The mutable parser state of `parse_text` (lines 130-136): the `years`
dict is an ordered association list, as Python dicts preserve insertion
order. -/
structure PState where
  years : List (Str × List Record)
  current_year : Option Str
  current_qnum : Option Str
  q_lines : List Str
  options : List (Char × Str)
  current_opt : Option Char
  in_options : Bool
deriving DecidableEq, Repr

/-- Lookup in the options dict (first matching key). -/
def lookupOpt : List (Char × Str) → Char → Option Str
  | [], _ => none
  | (k, v) :: rest, c => if k = c then some v else lookupOpt rest c

/-- `options.get(letter, '')`. -/
def getOpt (options : List (Char × Str)) (c : Char) : Str :=
  (lookupOpt options c).getD []

/-- `options[letter] = v`: update the existing key in place, else append the
new key at the end (Python dict assignment). -/
def setOptVal (c : Char) (v : Str) : List (Char × Str) → List (Char × Str)
  | [] => [(c, v)]
  | (k, w) :: rest => if k = c then (k, v) :: rest else (k, w) :: setOptVal c v rest

/-- The source's test `letter in options and options[letter].strip()`: the
slot exists and holds text that is nonempty after stripping. -/
def filledOpt (options : List (Char × Str)) (c : Char) : Bool :=
  match lookupOpt options c with
  | some t => !(strip t).isEmpty
  | none => false

/-- The fallback scan of `place_option` (lines 140-143): the first letter in
fixed order `a, b, c, d` whose slot is absent or empty. -/
def findFree (options : List (Char × Str)) : Option Char :=
  ['a', 'b', 'c', 'd'].find? fun c => !filledOpt options c

/-- `place_option` (src/info/convert.py lines 138-144).  Note that when the
target slot is filled and no fallback slot is free, the `for` loop leaves
`letter` unchanged and the final assignment overwrites the target slot. -/
def place_option (options : List (Char × Str)) (letter : Char) (text_val : Str) :
    List (Char × Str) :=
  if filledOpt options letter then
    match findFree options with
    | some fb => setOptVal fb text_val options
    | none => setOptVal letter text_val options
  else
    setOptVal letter text_val options

/-- Decimal digits of a natural number. -/
def natDigits (n : Nat) : Str := Nat.toDigits 10 n

/-- Python's `f"{n:0wd}"` left zero-padding to a minimum width. -/
def natPad (w : Nat) (n : Nat) : Str :=
  List.replicate (w - (natDigits n).length) '0' ++ natDigits n

/-- `int(...)` on the captured digit run. -/
def digitsToNat (ds : Str) : Nat :=
  ds.foldl (fun a c => a * 10 + (c.toNat - '0'.toNat)) 0

/-- The id composed in `flush_question` (line 155):
`f"POL-{current_year}-{int(current_qnum):02d}"`. -/
def mkId (year : Str) (qnum : Str) : Str :=
  "POL-".toList ++ year ++ '-' :: natPad 2 (digitsToNat qnum)

/-- One rendered option (line 154): `f"{letter.upper()}. {t}"` when the
normalized text is nonempty, else the bare `f"{letter.upper()}. "`. -/
def renderOpt (up : Char) (t : Str) : Str :=
  if t.isEmpty then [up, '.', ' '] else up :: '.' :: ' ' :: t

/-- The four-element options list built in `flush_question` (lines 151-154). -/
def mkOptList (options : List (Char × Str)) : List Str :=
  [renderOpt 'A' (normalize_inline (getOpt options 'a')),
   renderOpt 'B' (normalize_inline (getOpt options 'b')),
   renderOpt 'C' (normalize_inline (getOpt options 'c')),
   renderOpt 'D' (normalize_inline (getOpt options 'd'))]

/-- The record appended by `flush_question` (lines 156-163). -/
def mkRecord (year qnum : Str) (q_lines : List Str) (options : List (Char × Str)) :
    Record :=
  { id := mkId year qnum
    question := finalize_question_text q_lines
    options := mkOptList options
    answer := []
    explanation := []
    difficulty := ['M'] }

/-- `years.setdefault(str(current_year), []).append(rec)`: append the record
to the year's list, creating the key at the end of the dict if absent. -/
def appendRecord : List (Str × List Record) → Str → Record → List (Str × List Record)
  | [], y, r => [(y, [r])]
  | (k, v) :: rest, y, r =>
    if k = y then (k, v ++ [r]) :: rest else (k, v) :: appendRecord rest y r

/-- `flush_question` (src/info/convert.py lines 146-168): a no-op unless both
a year and a question number are set; otherwise append the assembled record
and reset the per-question accumulation state (the year survives). -/
def flush_question (s : PState) : PState :=
  match s.current_year, s.current_qnum with
  | some y, some n =>
    { s with
      years := appendRecord s.years y (mkRecord y n s.q_lines s.options)
      current_qnum := none
      q_lines := []
      options := []
      current_opt := none
      in_options := false }
  | _, _ => s

/-- The body of the `for raw in text.splitlines()` loop (lines 170-214),
applied to the already right-stripped line. -/
def processLine (s : PState) (line : Str) : PState :=
  match matchYear line with
  | some y =>
    let s' := flush_question s
    { s' with current_year := some y }
  | none =>
    match (if s.current_year.isSome then matchQStart line else none) with
    | some (n, fp) =>
      if s.current_qnum.isNone || !s.options.isEmpty then
        let s' := flush_question s
        { s' with
          current_qnum := some n
          q_lines := s'.q_lines ++ (if fp.isEmpty then [] else [fp])
          in_options := false
          current_opt := none }
      else
        { s with q_lines := s.q_lines ++ [line] }
    | none =>
      if s.current_year.isSome && s.current_qnum.isSome then
        match matchOpt line with
        | some (c, t) =>
          { s with
            in_options := true
            current_opt := some c
            options := place_option s.options c t }
        | none =>
          match s.in_options, s.current_opt with
          | true, some c =>
            if (strip line).isEmpty then s
            else
              { s with
                options := setOptVal c (strip (getOpt s.options c ++ ' ' :: strip line)) s.options }
          | _, _ => { s with q_lines := s.q_lines ++ [line] }
      else s

/-- One loop iteration on a raw line: `line = raw.rstrip()` then the body. -/
def step (s : PState) (raw : Str) : PState := processLine s (rstrip raw)

/-- The initial parser state (lines 130-136). -/
def initState : PState :=
  { years := []
    current_year := none
    current_qnum := none
    q_lines := []
    options := []
    current_opt := none
    in_options := false }

/-- `parse_text` on an already-split list of lines: fold the loop body, then
the final `flush_question()` (line 216), and return `years`. -/
def parse_lines (lines : List Str) : List (Str × List Record) :=
  (flush_question (lines.foldl step initState)).years

/-- Python `str.splitlines()` restricted to the line breaks `\n`, `\r\n` and
`\r`; no trailing empty line is produced. -/
def splitlinesGo : Str → Str → List Str
  | [], acc => if acc.isEmpty then [] else [acc.reverse]
  | '\r' :: '\n' :: rest, acc => acc.reverse :: splitlinesGo rest []
  | '\n' :: rest, acc => acc.reverse :: splitlinesGo rest []
  | '\r' :: rest, acc => acc.reverse :: splitlinesGo rest []
  | c :: rest, acc => splitlinesGo rest (c :: acc)

/-- Split a text into lines. -/
def splitlines (t : Str) : List Str := splitlinesGo t []

/-- `parse_text` (src/info/convert.py lines 129-217). -/
def parse_text (t : Str) : List (Str × List Record) := parse_lines (splitlines t)

/-! Model of the re-indexing utility `reindex_polity_questions`
(src/info/id_corrector.py lines 37-58), restricted to its data
transformation: file I/O and the JSON round trip are outside the model.
The loaded `years` mapping is an ordered association list (JSON object keys
are unique and ordered). -/

/-- Lexicographic comparison of character lists by code point, as Python
compares strings. -/
def strLt : Str → Str → Bool
  | _, [] => false
  | [], _ :: _ => true
  | a :: as, b :: bs => if a < b then true else if b < a then false else strLt as bs

/-- `sorted(keys, reverse=True)` (line 41): sort into descending string
order.  On duplicate-free key lists every sort by this total order produces
the same list, so insertion sort models Python's sort faithfully. -/
def sortDescStr (ks : List Str) : List Str :=
  List.insertionSort (fun a b => strLt a b = false) ks

instance : DecidableRel (fun a b : Str => strLt a b = false) :=
  fun _ _ => inferInstanceAs (Decidable _)

/-- Lookup of a year key in the mapping (`data['years'][year]` read). -/
def lookupY : List (Str × List Record) → Str → Option (List Record)
  | [], _ => none
  | (k, v) :: rest, y => if k = y then some v else lookupY rest y

/-- Length of a year's question list, zero when the key is absent. -/
def lenOf (m : List (Str × List Record)) (y : Str) : Nat :=
  ((lookupY m y).getD []).length

/-- Write of a year's question list back into the mapping
(`data['years'][year]` entry mutation); keys and their order are kept. -/
def setYear (y : Str) (qs : List Record) : List (Str × List Record) → List (Str × List Record)
  | [] => []
  | (k, v) :: rest => if k = y then (k, qs) :: rest else (k, v) :: setYear y qs rest

/-- The new id schema (line 52): `f"ENVI-{year}-{global_id_counter:03}"`. -/
def mkEnviId (year : Str) (n : Nat) : Str :=
  "ENVI-".toList ++ year ++ '-' :: natPad 3 n

/-- The inner loop over one year's questions (lines 49-58): set each `id` to
the schema value and advance the global counter by one per question. -/
def assignIds (year : Str) : Nat → List Record → List Record
  | _, [] => []
  | c, q :: qs => { q with id := mkEnviId year c } :: assignIds year (c + 1) qs

/-- One iteration of the outer loop (lines 47-58) on the pair of the mapping
and the global counter. -/
def stepYear (st : List (Str × List Record) × Nat) (y : Str) :
    List (Str × List Record) × Nat :=
  match lookupY st.1 y with
  | some qs => (setYear y (assignIds y st.2 qs) st.1, st.2 + qs.length)
  | none => st

/-- The data transformation of `reindex_polity_questions`: iterate the
descending-sorted year keys with the global counter starting at 1. -/
def reindex_polity_questions (m : List (Str × List Record)) : List (Str × List Record) :=
  ((sortDescStr (m.map Prod.fst)).foldl stepYear (m, 1)).1

/-- The global sequence number a year's first question receives, following
the visit order `ks`: 1 plus the number of questions in years visited
earlier. -/
def startOf (m : List (Str × List Record)) : Nat → List Str → Str → Nat
  | c, [], _ => c
  | c, k :: ks, y => if k = y then c else startOf m (c + lenOf m k) ks y

/-- Stated from the spec's flush description, for comparison with the
source's `finalize_question_text`: collapse every run of two or more
consecutive blank lines to a single blank line, leaving other lines as they
are. -/
def collapseSpecLoop : List Str → Bool → List Str
  | [], _ => []
  | ln :: ls, prevBlank =>
    if (strip ln).isEmpty then
      (if prevBlank then [] else [ln]) ++ collapseSpecLoop ls true
    else
      ln :: collapseSpecLoop ls false

/-- Stated from the spec's flush description: remove leading and trailing
fully-blank lines, collapse blank-line runs, join with newline. -/
def finalizeSpec (lines : List Str) : Str :=
  joinNL (collapseSpecLoop (trimBlanks lines) false)

/-- Two records that agree on every field except possibly `id`. -/
def sameExceptId (q q' : Record) : Prop :=
  q.question = q'.question ∧ q.options = q'.options ∧ q.answer = q'.answer ∧
    q.explanation = q'.explanation ∧ q.difficulty = q'.difficulty

/-- Pointwise relation between two year mappings: same keys in the same
order, and questions related pairwise in order. -/
def yearsRel (R : Record → Record → Prop) (m m' : List (Str × List Record)) : Prop :=
  List.Forall₂ (fun e e' => e.1 = e'.1 ∧ List.Forall₂ R e.2 e'.2) m m'

/-! General lemmas about the string primitives. -/

theorem mem_of_mem_dropWhile {α : Type} {p : α → Bool} :
    ∀ {l : List α} {a : α}, a ∈ l.dropWhile p → a ∈ l := by
  intro l
  induction l with
  | nil => intro a h; simp at h
  | cons x xs ih =>
    intro a h
    rw [List.dropWhile_cons] at h
    by_cases hx : p x = true
    · simp only [hx, if_true] at h
      exact List.mem_cons_of_mem x (ih h)
    · simp only [hx, if_false] at h
      exact h

theorem mem_dropWhile_of_mem {α : Type} {p : α → Bool} :
    ∀ {l : List α} {a : α}, a ∈ l → p a = false → a ∈ l.dropWhile p := by
  intro l
  induction l with
  | nil => intro a h; simp at h
  | cons x xs ih =>
    intro a h hpa
    rw [List.dropWhile_cons]
    by_cases hx : p x = true
    · simp only [hx, if_true]
      rcases List.mem_cons.mp h with rfl | hmem
      · rw [hpa] at hx; exact absurd hx (by simp)
      · exact ih hmem hpa
    · simp only [hx, if_false]
      exact h

theorem dropWhile_dropWhile {α : Type} {p : α → Bool} :
    ∀ l : List α, (l.dropWhile p).dropWhile p = l.dropWhile p := by
  intro l
  induction l with
  | nil => rfl
  | cons x xs ih =>
    rw [List.dropWhile_cons]
    by_cases hx : p x = true
    · rw [if_pos hx]; exact ih
    · rw [if_neg hx, List.dropWhile_cons, if_neg hx]

theorem dropWhile_append_eager {α : Type} {p : α → Bool} :
    ∀ (l1 l2 : List α), (l1 ++ l2).dropWhile p =
      if (l1.dropWhile p).isEmpty then l2.dropWhile p else l1.dropWhile p ++ l2 := by
  intro l1 l2
  induction l1 with
  | nil => simp
  | cons x xs ih =>
    rw [List.cons_append, List.dropWhile_cons, List.dropWhile_cons]
    by_cases hx : p x = true
    · simp only [hx, if_true]; exact ih
    · simp only [hx, if_false, List.isEmpty_cons, if_false]
      simp

theorem rstrip_append (xs ys : Str) :
    rstrip (xs ++ ys) = if (rstrip ys).isEmpty then rstrip xs else xs ++ rstrip ys := by
  unfold rstrip
  rw [List.reverse_append, dropWhile_append_eager]
  have hiso : (ys.reverse.dropWhile isSpace).reverse.isEmpty = (ys.reverse.dropWhile isSpace).isEmpty := by
    rcases h : ys.reverse.dropWhile isSpace with _ | ⟨a, t⟩ <;> simp
  by_cases hy : (ys.reverse.dropWhile isSpace).isEmpty = true
  · rw [if_pos hy, hiso.trans hy, if_pos rfl]
  · rw [if_neg hy, List.reverse_append]
    rw [if_neg (by rw [hiso]; exact hy), List.reverse_reverse]

theorem rstrip_cons {c : Char} (hc : isSpace c = false) (xs : Str) :
    rstrip (c :: xs) = c :: rstrip xs := by
  have : (c :: xs) = [c] ++ xs := rfl
  rw [this, rstrip_append]
  have hrc : rstrip [c] = [c] := by
    unfold rstrip
    simp [List.dropWhile_cons, hc]
  by_cases h : (rstrip xs).isEmpty = true
  · rw [if_pos h, hrc, List.isEmpty_iff.mp h]
  · rw [if_neg h]; rfl

theorem rstrip_eq_nil_iff {l : Str} : rstrip l = [] ↔ ∀ c ∈ l, isSpace c = true := by
  unfold rstrip
  rw [List.reverse_eq_nil_iff, List.dropWhile_eq_nil_iff]
  constructor
  · intro h c hc; exact h c (List.mem_reverse.mpr hc)
  · intro h c hc; exact h c (List.mem_reverse.mp hc)

theorem strip_eq_nil_iff {l : Str} : strip l = [] ↔ ∀ c ∈ l, isSpace c = true := by
  unfold strip lstrip
  rw [rstrip_eq_nil_iff]
  constructor
  · intro h c hc
    by_cases hcs : isSpace c = true
    · exact hcs
    · exact h c (mem_dropWhile_of_mem hc (by simpa using hcs))
  · intro h c hc
    exact h c (mem_of_mem_dropWhile hc)

theorem rstrip_idem (l : Str) : rstrip (rstrip l) = rstrip l := by
  unfold rstrip
  rw [List.reverse_reverse, dropWhile_dropWhile]

theorem rstrip_strip (l : Str) : rstrip (strip l) = strip l := rstrip_idem _

theorem eq_nil_of_blank_of_rstripped {l : Str} (h1 : strip l = [])
    (h2 : rstrip l = l) : l = [] := by
  rw [← h2]
  exact rstrip_eq_nil_iff.mpr (strip_eq_nil_iff.mp h1)

/-! Character classification facts. -/

theorem isSpace_cases {c : Char} (h : isSpace c = true) :
    c = ' ' ∨ c = '\t' ∨ c = '\n' ∨ c = '\r' ∨ c = '\x0b' ∨ c = '\x0c' := by
  simp only [isSpace, Bool.or_eq_true, decide_eq_true_eq] at h
  tauto

theorem isSpace_of_isDigit {c : Char} (h : Char.isDigit c = true) :
    isSpace c = false := by
  cases hb : isSpace c
  · rfl
  · rcases isSpace_cases hb with rfl | rfl | rfl | rfl | rfl | rfl <;>
      exact absurd h (by decide)

theorem isSpace_of_ge_lower {c : Char} (h : 'a' ≤ c) : isSpace c = false := by
  cases hb : isSpace c
  · rfl
  · rcases isSpace_cases hb with rfl | rfl | rfl | rfl | rfl | rfl <;>
      exact absurd h (by decide)

theorem isDigit_of_ge_lower {c : Char} (h : 'a' ≤ c) : Char.isDigit c = false := by
  cases hb : Char.isDigit c
  · rfl
  · exfalso
    simp only [Char.isDigit, Bool.and_eq_true, decide_eq_true_eq] at hb
    have h2 : ('a'.val.toNat) ≤ c.val.toNat := h
    have h1 : c.val.toNat ≤ 57 := hb.2
    have h3 : (97 : Nat) ≤ 57 := le_trans h2 h1
    omega

theorem ne_dot_of_ge_lower {c : Char} (h : 'a' ≤ c) : c ≠ '.' := by
  rintro rfl
  exact absurd h (by decide)

/-! Shape facts for the three line matchers, and their mutual exclusions in
the order the source tests them. -/

theorem matchQStart_shape {l : Str} {n fp : Str}
    (h : matchQStart l = some (n, fp)) :
    n = (lstrip l).takeWhile Char.isDigit ∧ n ≠ [] ∧
      ∃ rest, lstrip l = n ++ '.' :: rest ∧ fp = strip rest := by
  simp only [matchQStart] at h
  split at h
  next p rest hd =>
    split at h
    next hcond =>
      simp only [Bool.and_eq_true, decide_eq_true_eq, Bool.not_eq_true'] at hcond
      obtain ⟨rfl, hne⟩ := hcond
      simp only [Option.some.injEq, Prod.mk.injEq] at h
      obtain ⟨rfl, rfl⟩ := h
      refine ⟨rfl, ?_, rest, ?_, rfl⟩
      · intro hnil
        rw [hnil] at hne
        simp at hne
      · conv_lhs => rw [← List.takeWhile_append_dropWhile Char.isDigit (lstrip l)]
        rw [hd]
    next => simp at h
  next => simp at h

theorem matchYear_eq_none_of_qstart {l : Str} {r : Str × Str}
    (h : matchQStart l = some r) : matchYear l = none := by
  obtain ⟨n, fp⟩ := r
  obtain ⟨-, -, rest, hsplit, -⟩ := matchQStart_shape h
  have hstrip : strip l = n ++ '.' :: rstrip rest := by
    unfold strip
    rw [hsplit, rstrip_append, rstrip_cons (by decide) rest]
    simp
  have hall : ((n ++ '.' :: rstrip rest).all Char.isDigit) = false := by
    rw [Bool.eq_false_iff]
    intro hall
    have := List.all_eq_true.mp hall '.' (by simp)
    exact absurd this (by decide)
  simp only [matchYear]
  rw [hstrip, hall]
  simp

theorem matchOpt_shape {l : Str} {c : Char} {t : Str}
    (h : matchOpt l = some (c, t)) :
    'a' ≤ c ∧ c ≤ 'd' ∧ ∃ d rest, (d = ')' ∨ d = '.') ∧ t = strip rest ∧
      (lstrip l = c :: d :: rest ∨ lstrip l = '(' :: c :: d :: rest) := by
  simp only [matchOpt] at h
  split at h
  next c' d' rest hdp =>
    split at h
    next hcond =>
      simp only [Bool.and_eq_true, Bool.or_eq_true, decide_eq_true_eq] at hcond
      obtain ⟨hc1, hc2⟩ := hcond
      simp only [Option.some.injEq, Prod.mk.injEq] at h
      obtain ⟨rfl, rfl⟩ := h
      refine ⟨hc1.1, hc1.2, d', rest, hc2, rfl, ?_⟩
      rcases ht : lstrip l with _ | ⟨x, xs⟩
      · rw [ht] at hdp
        simp [dropParen] at hdp
      · rw [ht] at hdp
        simp only [dropParen] at hdp
        by_cases hx : x = '('
        · rw [if_pos hx] at hdp
          rw [hx, hdp]
          exact Or.inr rfl
        · rw [if_neg hx] at hdp
          rw [hdp]
          exact Or.inl rfl
    next => simp at h
  next => simp at h

theorem matchYear_eq_none_of_opt {l : Str} {r : Char × Str}
    (h : matchOpt l = some r) : matchYear l = none := by
  obtain ⟨c, t⟩ := r
  obtain ⟨hc1, -, d, rest, -, -, hsplit | hsplit⟩ := matchOpt_shape h
  · have hstrip : strip l = c :: rstrip (d :: rest) := by
      unfold strip
      rw [hsplit, rstrip_cons (isSpace_of_ge_lower hc1)]
    have hall : ((c :: rstrip (d :: rest)).all Char.isDigit) = false := by
      rw [Bool.eq_false_iff]
      intro hall
      have := List.all_eq_true.mp hall c (by simp)
      rw [isDigit_of_ge_lower hc1] at this
      exact absurd this (by simp)
    simp only [matchYear]
    rw [hstrip, hall]
    simp
  · have hstrip : strip l = '(' :: rstrip (c :: d :: rest) := by
      unfold strip
      rw [hsplit, rstrip_cons (by decide)]
    have hall : (('(' :: rstrip (c :: d :: rest)).all Char.isDigit) = false := by
      rw [Bool.eq_false_iff]
      intro hall
      have := List.all_eq_true.mp hall '(' (by simp)
      exact absurd this (by decide)
    simp only [matchYear]
    rw [hstrip, hall]
    simp

theorem matchQStart_eq_none_of_opt {l : Str} {r : Char × Str}
    (h : matchOpt l = some r) : matchQStart l = none := by
  obtain ⟨c, t⟩ := r
  obtain ⟨hc1, -, d, rest, -, -, hsplit | hsplit⟩ := matchOpt_shape h
  · have hdw : (lstrip l).dropWhile Char.isDigit = c :: d :: rest := by
      rw [hsplit, List.dropWhile_cons, if_neg (by rw [isDigit_of_ge_lower hc1]; simp)]
    have htw : (lstrip l).takeWhile Char.isDigit = [] := by
      rw [hsplit, List.takeWhile_cons, if_neg (by rw [isDigit_of_ge_lower hc1]; simp)]
    simp only [matchQStart]
    rw [hdw, htw]
    simp
  · have hdw : (lstrip l).dropWhile Char.isDigit = '(' :: c :: d :: rest := by
      rw [hsplit, List.dropWhile_cons, if_neg (by decide)]
    have htw : (lstrip l).takeWhile Char.isDigit = [] := by
      rw [hsplit, List.takeWhile_cons, if_neg (by decide)]
    simp only [matchQStart]
    rw [hdw, htw]
    simp

theorem strip_ne_nil_of_qstart {l : Str} {r : Str × Str}
    (h : matchQStart l = some r) : ¬((strip l).isEmpty = true) := by
  obtain ⟨n, fp⟩ := r
  obtain ⟨-, -, rest, hsplit, -⟩ := matchQStart_shape h
  have hstrip : strip l = n ++ '.' :: rstrip rest := by
    unfold strip
    rw [hsplit, rstrip_append, rstrip_cons (by decide) rest]
    simp
  rw [hstrip]
  simp

/-! Behaviour of `flush_question` and one parser step. -/

theorem flush_years (s : PState) :
    (flush_question s).years = s.years ∨
      ∃ y n, s.current_year = some y ∧ s.current_qnum = some n ∧
        (flush_question s).years = appendRecord s.years y (mkRecord y n s.q_lines s.options) := by
  rcases hy : s.current_year with _ | y
  · left; simp [flush_question, hy]
  · rcases hn : s.current_qnum with _ | n
    · left; simp [flush_question, hy, hn]
    · right; exact ⟨y, n, rfl, rfl, by simp [flush_question, hy, hn]⟩

theorem flush_q_lines (s : PState) :
    (flush_question s).q_lines = [] ∨ (flush_question s).q_lines = s.q_lines := by
  rcases hy : s.current_year with _ | y
  · right; simp [flush_question, hy]
  · rcases hn : s.current_qnum with _ | n
    · right; simp [flush_question, hy, hn]
    · left; simp [flush_question, hy, hn]

theorem of_guard_some {α : Type} {o : Bool} {x : Option α} {v : α}
    (h : (if o = true then x else none) = some v) : x = some v := by
  cases o
  · simp at h
  · simpa using h

theorem step_years (s : PState) (raw : Str) :
    (step s raw).years = (flush_question s).years ∨ (step s raw).years = s.years := by
  unfold step processLine
  repeat' split
  all_goals first | (left; rfl) | (right; rfl)

/-! Invariant framework: a predicate on the years mapping that survives
`appendRecord` of an assembled record survives the whole parse. -/

theorem flush_preserves {P : List (Str × List Record) → Prop}
    (hP : ∀ ys y n ql op, P ys → P (appendRecord ys y (mkRecord y n ql op)))
    (s : PState) (h : P s.years) : P (flush_question s).years := by
  rcases flush_years s with heq | ⟨y, n, -, -, heq⟩ <;> rw [heq]
  · exact h
  · exact hP _ _ _ _ _ h

theorem step_preserves {P : List (Str × List Record) → Prop}
    (hP : ∀ ys y n ql op, P ys → P (appendRecord ys y (mkRecord y n ql op)))
    (s : PState) (raw : Str) (h : P s.years) : P (step s raw).years := by
  rcases step_years s raw with heq | heq <;> rw [heq]
  · exact flush_preserves hP s h
  · exact h

theorem foldl_preserves {P : List (Str × List Record) → Prop}
    (hP : ∀ ys y n ql op, P ys → P (appendRecord ys y (mkRecord y n ql op))) :
    ∀ (lines : List Str) (s : PState), P s.years → P (List.foldl step s lines).years := by
  intro lines
  induction lines with
  | nil => intro s h; exact h
  | cons x xs ih =>
    intro s h
    rw [List.foldl_cons]
    exact ih _ (step_preserves hP s x h)

theorem parse_lines_invariant {P : List (Str × List Record) → Prop}
    (hP : ∀ ys y n ql op, P ys → P (appendRecord ys y (mkRecord y n ql op)))
    (hinit : P []) (lines : List Str) : P (parse_lines lines) := by
  unfold parse_lines
  exact flush_preserves hP _ (foldl_preserves hP lines initState hinit)

/-! Membership and key structure of `appendRecord`. -/

theorem mem_appendRecord {ys : List (Str × List Record)} {y : Str} {r : Record}
    {e : Str × List Record} (h : e ∈ appendRecord ys y r) :
    e ∈ ys ∨ (∃ v, (y, v) ∈ ys ∧ e = (y, v ++ [r])) ∨ e = (y, [r]) := by
  induction ys with
  | nil =>
    simp only [appendRecord, List.mem_singleton] at h
    exact Or.inr (Or.inr h)
  | cons kv rest ih =>
    obtain ⟨k, v⟩ := kv
    simp only [appendRecord] at h
    by_cases hk : k = y
    · rw [if_pos hk] at h
      rcases List.mem_cons.mp h with rfl | hmem
      · subst hk
        exact Or.inr (Or.inl ⟨v, List.mem_cons_self _ _, rfl⟩)
      · exact Or.inl (List.mem_cons_of_mem _ hmem)
    · rw [if_neg hk] at h
      rcases List.mem_cons.mp h with rfl | hmem
      · exact Or.inl (List.mem_cons_self _ _)
      · rcases ih hmem with h1 | ⟨v', hv', rfl⟩ | rfl
        · exact Or.inl (List.mem_cons_of_mem _ h1)
        · exact Or.inr (Or.inl ⟨v', List.mem_cons_of_mem _ hv', rfl⟩)
        · exact Or.inr (Or.inr rfl)

theorem keys_appendRecord (ys : List (Str × List Record)) (y : Str) (r : Record) :
    (appendRecord ys y r).map Prod.fst =
      if y ∈ ys.map Prod.fst then ys.map Prod.fst else ys.map Prod.fst ++ [y] := by
  induction ys with
  | nil => simp [appendRecord]
  | cons kv rest ih =>
    obtain ⟨k, v⟩ := kv
    simp only [appendRecord]
    by_cases hk : k = y
    · rw [if_pos hk]
      subst hk
      simp
    · rw [if_neg hk]
      simp only [List.map_cons, ih]
      by_cases hmem : y ∈ rest.map Prod.fst
      · rw [if_pos hmem, if_pos (by simp [hmem])]
      · rw [if_neg hmem, if_neg ?_]
        · simp
        · simp only [List.map_cons, List.mem_cons]
          rintro (h1 | h2)
          · exact hk h1.symm
          · exact hmem h2

theorem nodup_keys_appendRecord {ys : List (Str × List Record)}
    (h : (ys.map Prod.fst).Nodup) (y : Str) (r : Record) :
    ((appendRecord ys y r).map Prod.fst).Nodup := by
  rw [keys_appendRecord]
  by_cases hmem : y ∈ ys.map Prod.fst
  · rw [if_pos hmem]; exact h
  · rw [if_neg hmem]
    rw [List.nodup_append]
    refine ⟨h, List.nodup_singleton _, ?_⟩
    intro a ha hb
    rw [List.mem_singleton] at hb
    subst hb
    exact hmem ha

/-! The per-key record predicate framework used for the id and options
invariants. -/

theorem parse_records_prop {Q : Str → Record → Prop}
    (hQ : ∀ y n ql op, Q y (mkRecord y n ql op)) (lines : List Str) :
    ∀ e ∈ parse_lines lines, ∀ r ∈ e.2, Q e.1 r := by
  refine parse_lines_invariant (P := fun ys => ∀ e ∈ ys, ∀ r ∈ e.2, Q e.1 r) ?_ ?_ lines
  · intro ys y n ql op hys e he r hr
    rcases mem_appendRecord he with h1 | ⟨v, hv, rfl⟩ | rfl
    · exact hys e h1 r hr
    · rcases List.mem_append.mp hr with h2 | h2
      · exact hys (y, v) hv r h2
      · rw [List.mem_singleton] at h2
        subst h2
        exact hQ y n ql op
    · rw [List.mem_singleton] at hr
      subst hr
      exact hQ y n ql op
  · intro e he
    simp at he

/-- Any member line of a joined line list occurs verbatim in the joined
string. -/
theorem joinNL_mem_decomp {ps : List Str} {l : Str} (h : l ∈ ps) :
    ∃ pre post, joinNL ps = pre ++ l ++ post := by
  induction ps with
  | nil => simp at h
  | cons p rest ih =>
    rcases List.mem_cons.mp h with rfl | hmem
    · rcases rest with _ | ⟨r, rs⟩
      · exact ⟨[], [], by simp [joinNL]⟩
      · exact ⟨[], '\n' :: joinNL (r :: rs), by simp [joinNL]⟩
    · obtain ⟨pre, post, hpre⟩ := ih hmem
      rcases rest with _ | ⟨r, rs⟩
      · simp at hmem
      · refine ⟨p ++ '\n' :: pre, post, ?_⟩
        show joinNL (p :: r :: rs) = _
        rw [show joinNL (p :: r :: rs) = p ++ '\n' :: joinNL (r :: rs) from rfl, hpre]
        simp

/-! The source's blank-collapse loop coincides with the spec-side one on
right-stripped lines, and `q_lines` only ever holds right-stripped lines. -/

theorem collapseLoop_eq_spec :
    ∀ (ls : List Str), (∀ l ∈ ls, rstrip l = l) → ∀ b,
      collapseLoop ls b = collapseSpecLoop ls b := by
  intro ls
  induction ls with
  | nil => intro _ b; rfl
  | cons ln rest ih =>
    intro h b
    have hln : rstrip ln = ln := h ln (List.mem_cons_self _ _)
    have hrest : ∀ l ∈ rest, rstrip l = l := fun l hl => h l (List.mem_cons_of_mem _ hl)
    by_cases hb : (strip ln).isEmpty = true
    · have hnil : ln = [] := eq_nil_of_blank_of_rstripped (List.isEmpty_iff.mp hb) hln
      subst hnil
      unfold collapseLoop collapseSpecLoop
      rw [if_pos hb, if_pos hb, ih hrest]
    · unfold collapseLoop collapseSpecLoop
      rw [if_neg hb, if_neg hb, hln, ih hrest]

theorem mem_of_mem_trimBlanks {ls : List Str} {l : Str} (h : l ∈ trimBlanks ls) :
    l ∈ ls := by
  unfold trimBlanks at h
  rw [List.mem_reverse] at h
  have h1 := mem_of_mem_dropWhile h
  rw [List.mem_reverse] at h1
  exact mem_of_mem_dropWhile h1

theorem finalize_eq_spec {lines : List Str} (h : ∀ l ∈ lines, rstrip l = l) :
    finalize_question_text lines = finalizeSpec lines := by
  unfold finalize_question_text finalizeSpec
  exact congrArg joinNL
    (collapseLoop_eq_spec _ (fun l hl => h l (mem_of_mem_trimBlanks hl)) false)

theorem mem_trimBlanks_of_nonblank {ls : List Str} {l : Str} (h : l ∈ ls)
    (hb : (strip l).isEmpty = false) : l ∈ trimBlanks ls := by
  unfold trimBlanks
  rw [List.mem_reverse]
  refine mem_dropWhile_of_mem ?_ hb
  rw [List.mem_reverse]
  exact mem_dropWhile_of_mem h hb

theorem mem_collapseLoop {ls : List Str} {l : Str} (hr : ∀ x ∈ ls, rstrip x = x)
    (h : l ∈ ls) (hb : (strip l).isEmpty = false) :
    ∀ b, l ∈ collapseLoop ls b := by
  induction ls with
  | nil => simp at h
  | cons x xs ih =>
    intro b
    rcases List.mem_cons.mp h with rfl | hmem
    · unfold collapseLoop
      rw [if_neg (by rw [hb]; simp)]
      rw [hr l (List.mem_cons_self _ _)]
      exact List.mem_cons_self _ _
    · have hxs : ∀ x ∈ xs, rstrip x = x := fun z hz => hr z (List.mem_cons_of_mem _ hz)
      unfold collapseLoop
      by_cases hx : (strip x).isEmpty = true
      · rw [if_pos hx]
        exact List.mem_append_right _ (ih hxs hmem true)
      · rw [if_neg hx]
        exact List.mem_cons_of_mem _ (ih hxs hmem false)

theorem finalize_mem_decomp {ls : List Str} {l : Str} (hr : ∀ x ∈ ls, rstrip x = x)
    (h : l ∈ ls) (hb : (strip l).isEmpty = false) :
    ∃ pre post, finalize_question_text ls = pre ++ l ++ post := by
  unfold finalize_question_text
  refine joinNL_mem_decomp ?_
  exact mem_collapseLoop (fun x hx => hr x (mem_of_mem_trimBlanks hx))
    (mem_trimBlanks_of_nonblank h hb) hb false

theorem step_q_lines_rstripped {s : PState} (hs : ∀ l ∈ s.q_lines, rstrip l = l)
    (raw : Str) : ∀ l ∈ (step s raw).q_lines, rstrip l = l := by
  have hflush : ∀ l ∈ (flush_question s).q_lines, rstrip l = l := by
    rcases flush_q_lines s with h | h <;> rw [h]
    · simp
    · exact hs
  have happ1 : ∀ l ∈ s.q_lines ++ [rstrip raw], rstrip l = l := by
    intro l hl
    rcases List.mem_append.mp hl with hl | hl
    · exact hs l hl
    · rw [List.mem_singleton] at hl
      subst hl
      exact rstrip_idem raw
  unfold step processLine
  split
  · exact hflush
  · split
    next n fp heq =>
      have hm := of_guard_some heq
      obtain ⟨-, -, rest, -, hfp⟩ := matchQStart_shape hm
      split
      · intro l hl
        rcases List.mem_append.mp hl with hl | hl
        · exact hflush l hl
        · by_cases hfe : fp.isEmpty = true
          · rw [if_pos hfe] at hl
            simp at hl
          · rw [if_neg hfe] at hl
            rw [List.mem_singleton] at hl
            subst hl
            rw [hfp]
            exact rstrip_strip rest
      · exact happ1
    · split
      · split
        · exact hs
        · split
          · split
            · exact hs
            · exact hs
          · exact happ1
      · exact hs

theorem q_lines_rstripped : ∀ (lines : List Str) (s : PState),
    (∀ l ∈ s.q_lines, rstrip l = l) →
      ∀ l ∈ (List.foldl step s lines).q_lines, rstrip l = l := by
  intro lines
  induction lines with
  | nil => intro s h; exact h
  | cons x xs ih =>
    intro s h
    rw [List.foldl_cons]
    exact ih _ (step_q_lines_rstripped h x)

/-! Single-branch evaluation lemmas for `processLine`. -/

theorem processLine_qstart_instem {s : PState} {line : Str} {y q : Str} {r : Str × Str}
    (hy : s.current_year = some y) (hq : s.current_qnum = some q)
    (hop : s.options = []) (hm : matchQStart line = some r) :
    processLine s line = { s with q_lines := s.q_lines ++ [line] } := by
  have h1 : matchYear line = none := matchYear_eq_none_of_qstart hm
  obtain ⟨n, fp⟩ := r
  simp [processLine, h1, hy, hq, hop, hm]

theorem processLine_opt {s : PState} {line : Str} {y q : Str} {c : Char} {t : Str}
    (hy : s.current_year = some y) (hq : s.current_qnum = some q)
    (hm : matchOpt line = some (c, t)) :
    processLine s line =
      { s with in_options := true, current_opt := some c,
               options := place_option s.options c t } := by
  have h1 : matchYear line = none := matchYear_eq_none_of_opt hm
  have h2 : matchQStart line = none := matchQStart_eq_none_of_opt hm
  simp [processLine, h1, h2, hy, hq, hm]

/-! When every slot `a`-`d` is filled, the fallback scan of `place_option`
finds nothing and the final assignment overwrites the targeted slot. -/

theorem findFree_eq_none {options : List (Char × Str)}
    (ha : filledOpt options 'a' = true) (hb : filledOpt options 'b' = true)
    (hc : filledOpt options 'c' = true) (hd : filledOpt options 'd' = true) :
    findFree options = none := by
  simp [findFree, List.find?, ha, hb, hc, hd]

theorem uint32_toNat_inj {a b : UInt32} (h : a.toNat = b.toNat) : a = b := by
  cases a with | mk v =>
  cases b with | mk w =>
  congr 1
  exact BitVec.toNat_injective h

theorem char_in_range_cases {c : Char} (h1 : 'a' ≤ c) (h2 : c ≤ 'd') :
    c = 'a' ∨ c = 'b' ∨ c = 'c' ∨ c = 'd' := by
  have l1 : ('a'.val.toNat) ≤ c.val.toNat := h1
  have l2 : c.val.toNat ≤ 'd'.val.toNat := h2
  have hv : c.val.toNat = 97 ∨ c.val.toNat = 98 ∨ c.val.toNat = 99 ∨ c.val.toNat = 100 := by
    have e1 : 'a'.val.toNat = 97 := rfl
    have e2 : 'd'.val.toNat = 100 := rfl
    omega
  have hchar : ∀ k : Char, c.val.toNat = k.val.toNat → c = k := by
    intro k hk
    exact Char.ext (uint32_toNat_inj hk)
  rcases hv with hv | hv | hv | hv
  · exact Or.inl (hchar 'a' hv)
  · exact Or.inr (Or.inl (hchar 'b' hv))
  · exact Or.inr (Or.inr (Or.inl (hchar 'c' hv)))
  · exact Or.inr (Or.inr (Or.inr (hchar 'd' hv)))

theorem place_option_overwrite {options : List (Char × Str)} {c : Char} (t : Str)
    (ha : filledOpt options 'a' = true) (hb : filledOpt options 'b' = true)
    (hc : filledOpt options 'c' = true) (hd : filledOpt options 'd' = true)
    (hcl : 'a' ≤ c) (hcu : c ≤ 'd') :
    place_option options c t = setOptVal c t options := by
  have hfill : filledOpt options c = true := by
    rcases char_in_range_cases hcl hcu with rfl | rfl | rfl | rfl
    · exact ha
    · exact hb
    · exact hc
    · exact hd
  unfold place_option
  rw [if_pos hfill, findFree_eq_none ha hb hc hd]

/-! Lexicographic string order facts, supplying the typeclass assumptions
for `List.insertionSort`. -/

theorem strLt_asymm : ∀ {a b : Str}, strLt a b = true → strLt b a = false := by
  intro a
  induction a with
  | nil =>
    intro b h
    rcases b with _ | ⟨y, ys⟩
    · exact absurd h (by simp [strLt])
    · rfl
  | cons x xs ih =>
    intro b h
    rcases b with _ | ⟨y, ys⟩
    · exact absurd h (by simp [strLt])
    · unfold strLt at h ⊢
      rcases lt_trichotomy x y with hxy | hxy | hxy
      · rw [if_neg (not_lt_of_lt hxy), if_pos hxy]
      · subst hxy
        rw [if_neg (lt_irrefl x), if_neg (lt_irrefl x)] at h ⊢
        exact ih h
      · rw [if_neg (not_lt_of_lt hxy), if_pos hxy] at h
        exact absurd h (by simp)

theorem strLt_negtrans : ∀ {a b c : Str}, strLt a b = false → strLt b c = false →
    strLt a c = false := by
  intro a
  induction a with
  | nil =>
    intro b c h1 h2
    rcases b with _ | ⟨y, ys⟩
    · exact h2
    · exact absurd h1 (by simp [strLt])
  | cons x xs ih =>
    intro b c h1 h2
    rcases c with _ | ⟨z, zs⟩
    · rfl
    · rcases b with _ | ⟨y, ys⟩
      · exact absurd h2 (by simp [strLt])
      · unfold strLt at h1 h2 ⊢
        have hxy : ¬x < y := by
          intro hlt
          rw [if_pos hlt] at h1
          exact absurd h1 (by simp)
        have hyz : ¬y < z := by
          intro hlt
          rw [if_pos hlt] at h2
          exact absurd h2 (by simp)
        have hxz : ¬x < z := fun hlt => hxy (lt_of_lt_of_le hlt (not_lt.mp hyz))
        rw [if_neg hxz]
        by_cases hzx : z < x
        · rw [if_pos hzx]
        · rw [if_neg hzx]
          have hzex : z = x := le_antisymm (not_lt.mp hxz) (not_lt.mp hzx)
          have hyex : y = x := le_antisymm (not_lt.mp hxy) (not_lt.mp (hzex ▸ hyz))
          rw [if_neg hxy, if_neg (by rw [hyex]; exact lt_irrefl x)] at h1
          rw [if_neg hyz, if_neg (by rw [hyex, hzex]; exact lt_irrefl x)] at h2
          exact ih h1 h2

instance : IsTotal Str (fun a b => strLt a b = false) := by
  refine ⟨fun a b => ?_⟩
  cases h : strLt a b
  · exact Or.inl rfl
  · exact Or.inr (strLt_asymm h)

instance : IsTrans Str (fun a b => strLt a b = false) :=
  ⟨fun _ _ _ => strLt_negtrans⟩

/-! Structural lemmas about the year mapping operations of the re-indexer. -/

theorem lookupY_isSome_iff {m : List (Str × List Record)} {y : Str} :
    (lookupY m y).isSome = true ↔ y ∈ m.map Prod.fst := by
  induction m with
  | nil => simp [lookupY]
  | cons kv rest ih =>
    obtain ⟨k, v⟩ := kv
    simp only [lookupY, List.map_cons, List.mem_cons]
    by_cases hk : k = y
    · rw [if_pos hk]
      simp [hk.symm]
    · rw [if_neg hk]
      rw [ih]
      constructor
      · exact Or.inr
      · rintro (h | h)
        · exact absurd h.symm hk
        · exact h

theorem setYear_keys (y : Str) (qs : List Record) (m : List (Str × List Record)) :
    (setYear y qs m).map Prod.fst = m.map Prod.fst := by
  induction m with
  | nil => rfl
  | cons kv rest ih =>
    obtain ⟨k, v⟩ := kv
    simp only [setYear]
    by_cases hk : k = y
    · rw [if_pos hk]; simp
    · rw [if_neg hk]; simp [ih]

theorem lookupY_setYear_ne {x y : Str} (hxy : x ≠ y) (qs : List Record)
    (m : List (Str × List Record)) : lookupY (setYear y qs m) x = lookupY m x := by
  induction m with
  | nil => rfl
  | cons kv rest ih =>
    obtain ⟨k, v⟩ := kv
    simp only [setYear]
    by_cases hk : k = y
    · rw [if_pos hk]
      simp only [lookupY]
      rw [if_neg (by rw [hk]; exact fun h => hxy h.symm),
        if_neg (by rw [hk]; exact fun h => hxy h.symm)]
    · rw [if_neg hk]
      simp only [lookupY]
      by_cases hkx : k = x
      · rw [if_pos hkx, if_pos hkx]
      · rw [if_neg hkx, if_neg hkx, ih]

theorem lookupY_setYear_self {y : Str} {m : List (Str × List Record)}
    {qs : List Record} (h : lookupY m y = some qs) (v : List Record) :
    lookupY (setYear y v m) y = some v := by
  induction m with
  | nil => simp [lookupY] at h
  | cons kv rest ih =>
    obtain ⟨k, w⟩ := kv
    simp only [lookupY, setYear] at h ⊢
    by_cases hk : k = y
    · rw [if_pos hk]
      simp only [lookupY]
      rw [if_pos hk]
    · rw [if_neg hk] at h
      rw [if_neg hk]
      simp only [lookupY]
      rw [if_neg hk]
      exact ih h

theorem assignIds_length (y : Str) : ∀ (c : Nat) (qs : List Record),
    (assignIds y c qs).length = qs.length := by
  intro c qs
  induction qs generalizing c with
  | nil => rfl
  | cons q rest ih => simp [assignIds, ih]

theorem lenOf_setYear_assign {m : List (Str × List Record)} {k : Str}
    {qs : List Record} (hqs : lookupY m k = some qs) (cc : Nat) (x : Str) :
    lenOf (setYear k (assignIds k cc qs) m) x = lenOf m x := by
  by_cases hx : x = k
  · subst hx
    unfold lenOf
    rw [lookupY_setYear_self hqs, hqs]
    simp [assignIds_length]
  · unfold lenOf
    rw [lookupY_setYear_ne hx]

theorem startOf_congr {m m' : List (Str × List Record)}
    (hlen : ∀ x, lenOf m' x = lenOf m x) :
    ∀ (ks : List Str) (c : Nat) (y : Str), startOf m' c ks y = startOf m c ks y := by
  intro ks
  induction ks with
  | nil => intro c y; rfl
  | cons k rest ih =>
    intro c y
    simp only [startOf]
    by_cases hk : k = y
    · rw [if_pos hk, if_pos hk]
    · rw [if_neg hk, if_neg hk, hlen, ih]

theorem setYear_map {m : List (Str × List Record)} (hnd : (m.map Prod.fst).Nodup)
    (y : Str) (v : List Record) :
    setYear y v m = m.map (fun e => if e.1 = y then (e.1, v) else e) := by
  induction m with
  | nil => rfl
  | cons kv rest ih =>
    obtain ⟨k, w⟩ := kv
    rw [List.map_cons, List.nodup_cons] at hnd
    simp only [setYear, List.map_cons]
    by_cases hk : k = y
    · rw [if_pos hk, if_pos hk]
      subst hk
      have : rest.map (fun e => if e.1 = k then (e.1, v) else e) = rest.map id := by
        refine List.map_congr_left ?_
        intro e he
        rw [if_neg, id]
        intro h1
        apply hnd.1
        rw [← h1]
        have hm2 : Prod.fst e ∈ rest.map Prod.fst := List.mem_map_of_mem Prod.fst he
        exact hm2
      rw [this, List.map_id]
    · rw [if_neg hk, if_neg hk, ih hnd.2]

theorem lookupY_eq_of_mem_nodup {m : List (Str × List Record)}
    (hnd : (m.map Prod.fst).Nodup) {k : Str} {v : List Record}
    (h : (k, v) ∈ m) : lookupY m k = some v := by
  induction m with
  | nil => simp at h
  | cons kv rest ih =>
    obtain ⟨k0, v0⟩ := kv
    rw [List.map_cons, List.nodup_cons] at hnd
    simp only [lookupY]
    rcases List.mem_cons.mp h with heq | hmem
    · obtain ⟨rfl, rfl⟩ : k0 = k ∧ v0 = v := by
        constructor <;> injection heq with h1 h2 <;> [exact h1.symm; exact h2.symm]
      rw [if_pos rfl]
    · by_cases hk : k0 = k
      · exfalso
        apply hnd.1
        rw [hk]
        have hm2 : Prod.fst (k, v) ∈ rest.map Prod.fst :=
          List.mem_map_of_mem Prod.fst hmem
        exact hm2
      · rw [if_neg hk]
        exact ih hnd.2 hmem

/-- Closed form of the re-indexer's fold: with duplicate-free keys, every
year listed in the visit order gets its questions renumbered starting at the
global counter value accumulated over earlier visited years. -/
theorem foldl_stepYear_eq :
    ∀ (ks : List Str) (m : List (Str × List Record)) (cc : Nat),
      (m.map Prod.fst).Nodup → ks.Nodup → (∀ k ∈ ks, k ∈ m.map Prod.fst) →
      (ks.foldl stepYear (m, cc)).1 =
        m.map (fun e =>
          if e.1 ∈ ks then (e.1, assignIds e.1 (startOf m cc ks e.1) e.2) else e) := by
  intro ks
  induction ks with
  | nil =>
    intro m cc _ _ _
    simp
  | cons k rest ih =>
    intro m cc hnd hksnd hmem
    rw [List.nodup_cons] at hksnd
    have hkmem : k ∈ m.map Prod.fst := hmem k (List.mem_cons_self _ _)
    obtain ⟨qs, hqs⟩ : ∃ qs, lookupY m k = some qs := by
      have := lookupY_isSome_iff.mpr hkmem
      rcases hl : lookupY m k with _ | qs
      · rw [hl] at this; simp at this
      · exact ⟨qs, rfl⟩
    rw [List.foldl_cons]
    have hstep : stepYear (m, cc) k = (setYear k (assignIds k cc qs) m, cc + qs.length) := by
      simp [stepYear, hqs]
    rw [hstep]
    have hnd1 : ((setYear k (assignIds k cc qs) m).map Prod.fst).Nodup := by
      rw [setYear_keys]; exact hnd
    have hmem1 : ∀ x ∈ rest, x ∈ (setYear k (assignIds k cc qs) m).map Prod.fst := by
      intro x hx
      rw [setYear_keys]
      exact hmem x (List.mem_cons_of_mem _ hx)
    rw [ih _ _ hnd1 hksnd.2 hmem1]
    rw [setYear_map hnd, List.map_map]
    have hlen : ∀ x, lenOf (setYear k (assignIds k cc qs) m) x = lenOf m x :=
      lenOf_setYear_assign hqs cc
    have e3 : lenOf m k = qs.length := by
      unfold lenOf
      rw [hqs]
      rfl
    refine List.map_congr_left ?_
    rintro ⟨y, v⟩ he
    simp only [Function.comp_apply]
    by_cases hy : y = k
    · subst hy
      have hveq : v = qs := by
        have hl := lookupY_eq_of_mem_nodup hnd he
        rw [hqs] at hl
        injection hl with hl'
        exact hl'.symm
      have hkrest : y ∉ rest := hksnd.1
      simp [hkrest, startOf, hveq]
    · have e1 : startOf (setYear k (assignIds k cc qs) m) (cc + qs.length) rest y =
          startOf m (cc + qs.length) rest y := startOf_congr hlen rest _ y
      rw [setYear_map hnd] at e1
      have e2 : startOf m cc (k :: rest) y = startOf m (cc + lenOf m k) rest y := by
        simp only [startOf]
        rw [if_neg (fun h => hy h.symm)]
      by_cases hyr : y ∈ rest
      · simp [hy, hyr, e1, e2, e3]
      · simp [hy, hyr]

/-- The re-indexer in closed form: every entry keeps its key and its
questions are renumbered from the global position determined by the
descending key order. -/
theorem reindex_eq {m : List (Str × List Record)} (hnd : (m.map Prod.fst).Nodup) :
    reindex_polity_questions m =
      m.map (fun e =>
        (e.1, assignIds e.1 (startOf m 1 (sortDescStr (m.map Prod.fst)) e.1) e.2)) := by
  unfold reindex_polity_questions
  have hperm : (sortDescStr (m.map Prod.fst)).Perm (m.map Prod.fst) :=
    List.perm_insertionSort _ _
  have hksnd : (sortDescStr (m.map Prod.fst)).Nodup := hperm.nodup_iff.mpr hnd
  have hmem : ∀ k ∈ sortDescStr (m.map Prod.fst), k ∈ m.map Prod.fst :=
    fun k hk => hperm.mem_iff.mp hk
  rw [foldl_stepYear_eq _ _ _ hnd hksnd hmem]
  refine List.map_congr_left ?_
  rintro ⟨y, v⟩ he
  rw [if_pos (hperm.mem_iff.mpr (List.mem_map_of_mem Prod.fst he))]

/-! The frame relation: the re-indexer only rewrites the id fields. -/

theorem sameExceptId_refl (q : Record) : sameExceptId q q := ⟨rfl, rfl, rfl, rfl, rfl⟩

theorem sameExceptId_trans {a b c : Record} (h1 : sameExceptId a b)
    (h2 : sameExceptId b c) : sameExceptId a c := by
  obtain ⟨p1, p2, p3, p4, p5⟩ := h1
  obtain ⟨q1, q2, q3, q4, q5⟩ := h2
  exact ⟨p1.trans q1, p2.trans q2, p3.trans q3, p4.trans q4, p5.trans q5⟩

theorem forall₂_sameExceptId_trans :
    ∀ {l1 l2 l3 : List Record}, List.Forall₂ sameExceptId l1 l2 →
      List.Forall₂ sameExceptId l2 l3 → List.Forall₂ sameExceptId l1 l3 := by
  intro l1
  induction l1 with
  | nil =>
    intro l2 l3 h1 h2
    cases h1
    cases h2
    exact List.Forall₂.nil
  | cons a as ih =>
    intro l2 l3 h1 h2
    cases h1 with
    | cons hab h1' =>
      cases h2 with
      | cons hbc h2' => exact List.Forall₂.cons (sameExceptId_trans hab hbc) (ih h1' h2')

theorem yearsRel_refl : ∀ m, yearsRel sameExceptId m m := by
  intro m
  induction m with
  | nil => exact List.Forall₂.nil
  | cons e es ih =>
    exact List.Forall₂.cons
      ⟨rfl, List.forall₂_same.mpr fun x _ => sameExceptId_refl x⟩ ih

theorem yearsRel_trans : ∀ {m1 m2 m3 : List (Str × List Record)},
    yearsRel sameExceptId m1 m2 → yearsRel sameExceptId m2 m3 →
      yearsRel sameExceptId m1 m3 := by
  intro m1
  induction m1 with
  | nil =>
    intro m2 m3 h1 h2
    cases h1
    cases h2
    exact List.Forall₂.nil
  | cons e es ih =>
    intro m2 m3 h1 h2
    cases h1 with
    | cons he h1' =>
      cases h2 with
      | cons he2 h2' =>
        exact List.Forall₂.cons
          ⟨he.1.trans he2.1, forall₂_sameExceptId_trans he.2 he2.2⟩ (ih h1' h2')

theorem assignIds_sameExceptId (y : Str) : ∀ (c : Nat) (qs : List Record),
    List.Forall₂ sameExceptId qs (assignIds y c qs) := by
  intro c qs
  induction qs generalizing c with
  | nil => exact List.Forall₂.nil
  | cons q rest ih => exact List.Forall₂.cons ⟨rfl, rfl, rfl, rfl, rfl⟩ (ih _)

theorem setYear_rel {k : Str} {w : List Record} :
    ∀ {m : List (Str × List Record)} {qs : List Record}, lookupY m k = some qs →
      List.Forall₂ sameExceptId qs w → yearsRel sameExceptId m (setYear k w m) := by
  intro m
  induction m with
  | nil =>
    intro qs h
    simp [lookupY] at h
  | cons kv rest ih =>
    intro qs h hrel
    obtain ⟨k0, v0⟩ := kv
    simp only [lookupY] at h
    simp only [setYear]
    by_cases hk : k0 = k
    · rw [if_pos hk] at h ⊢
      injection h with h'
      subst h'
      exact List.Forall₂.cons ⟨rfl, hrel⟩ (yearsRel_refl rest)
    · rw [if_neg hk] at h ⊢
      exact List.Forall₂.cons
        ⟨rfl, List.forall₂_same.mpr fun x _ => sameExceptId_refl x⟩ (ih h hrel)

theorem stepYear_rel (m : List (Str × List Record)) (cc : Nat) (k : Str) :
    yearsRel sameExceptId m (stepYear (m, cc) k).1 := by
  rcases hl : lookupY m k with _ | qs
  · simp only [stepYear, hl]
    exact yearsRel_refl m
  · simp only [stepYear, hl]
    exact setYear_rel hl (assignIds_sameExceptId k cc qs)

theorem foldl_stepYear_rel : ∀ (ks : List Str) (m : List (Str × List Record)) (cc : Nat),
    yearsRel sameExceptId m (ks.foldl stepYear (m, cc)).1 := by
  intro ks
  induction ks with
  | nil =>
    intro m cc
    exact yearsRel_refl m
  | cons k rest ih =>
    intro m cc
    rw [List.foldl_cons]
    exact yearsRel_trans (stepYear_rel m cc k)
      (ih (stepYear (m, cc) k).1 (stepYear (m, cc) k).2)

theorem renderOpt_eq (up : Char) (t : Str) : renderOpt up t = up :: '.' :: ' ' :: t := by
  unfold renderOpt
  by_cases h : t.isEmpty = true
  · rw [if_pos h, List.isEmpty_iff.mp h]
  · rw [if_neg h]

/-! Per-key behaviour of `appendRecord` and growth of the year lists along
the parse: a flush appends its record at the end of exactly its year's
list, and whatever a year's list holds at any point of the parse persists
as a prefix of that year's final list. -/

theorem lookupY_appendRecord_self : ∀ (ys : List (Str × List Record)) (y : Str) (r : Record),
    lookupY (appendRecord ys y r) y = some ((lookupY ys y).getD [] ++ [r]) := by
  intro ys y r
  induction ys with
  | nil => simp [appendRecord, lookupY]
  | cons kv rest ih =>
    obtain ⟨k, v⟩ := kv
    simp only [appendRecord]
    by_cases hk : k = y
    · rw [if_pos hk]
      simp only [lookupY]
      rw [if_pos hk, if_pos hk]
      rfl
    · rw [if_neg hk]
      simp only [lookupY]
      rw [if_neg hk, if_neg hk]
      exact ih

theorem lookupY_appendRecord_ne : ∀ (ys : List (Str × List Record)) (y y' : Str),
    y' ≠ y → ∀ (r : Record),
      lookupY (appendRecord ys y r) y' = lookupY ys y' := by
  intro ys y y' hne r
  induction ys with
  | nil =>
    simp only [appendRecord, lookupY]
    rw [if_neg (fun h => hne h.symm)]
  | cons kv rest ih =>
    obtain ⟨k, v⟩ := kv
    simp only [appendRecord]
    by_cases hk : k = y
    · rw [if_pos hk]
      simp only [lookupY]
      rw [if_neg (by rw [hk]; exact fun h => hne h.symm),
        if_neg (by rw [hk]; exact fun h => hne h.symm)]
    · rw [if_neg hk]
      simp only [lookupY]
      by_cases hky : k = y'
      · rw [if_pos hky, if_pos hky]
      · rw [if_neg hky, if_neg hky]
        exact ih

theorem step_years_append (s : PState) (raw : Str) :
    (step s raw).years = s.years ∨
      ∃ y r, (step s raw).years = appendRecord s.years y r := by
  rcases step_years s raw with h | h
  · rcases flush_years s with h2 | ⟨y, n, -, -, h2⟩
    · left
      rw [h, h2]
    · right
      exact ⟨y, mkRecord y n s.q_lines s.options, by rw [h, h2]⟩
  · left
    exact h

theorem lookupY_step_extends (s : PState) (raw : Str) (y : Str) :
    lookupY (step s raw).years y = lookupY s.years y ∨
      ∃ r, lookupY (step s raw).years y =
        some ((lookupY s.years y).getD [] ++ [r]) := by
  rcases step_years_append s raw with h | ⟨y0, r, h⟩
  · left
    rw [h]
  · by_cases hy : y = y0
    · subst hy
      right
      exact ⟨r, by rw [h, lookupY_appendRecord_self]⟩
    · left
      rw [h, lookupY_appendRecord_ne s.years y0 y hy r]

theorem lookupY_flush_extends (s : PState) (y : Str) {qs : List Record}
    (h : lookupY s.years y = some qs) :
    ∃ ext, lookupY (flush_question s).years y = some (qs ++ ext) := by
  rcases flush_years s with h2 | ⟨y0, n, -, -, h2⟩
  · exact ⟨[], by rw [h2, h, List.append_nil]⟩
  · by_cases hy : y = y0
    · subst hy
      refine ⟨[mkRecord y n s.q_lines s.options], ?_⟩
      rw [h2, lookupY_appendRecord_self, h]
      rfl
    · exact ⟨[], by rw [h2, lookupY_appendRecord_ne s.years y0 y hy _, h, List.append_nil]⟩

theorem lookupY_foldl_extends : ∀ (raws : List Str) (s : PState) (y : Str) (qs : List Record),
    lookupY s.years y = some qs →
      ∃ ext, lookupY (List.foldl step s raws).years y = some (qs ++ ext) := by
  intro raws
  induction raws with
  | nil =>
    intro s y qs h
    exact ⟨[], by rw [List.foldl_nil, h, List.append_nil]⟩
  | cons raw rest ih =>
    intro s y qs h
    rw [List.foldl_cons]
    rcases lookupY_step_extends s raw y with h1 | ⟨r, h1⟩
    · exact ih (step s raw) y qs (h1.trans h)
    · have h1' : lookupY (step s raw).years y = some (qs ++ [r]) := by
        rw [h1, h]
        rfl
      obtain ⟨ext, h2⟩ := ih (step s raw) y (qs ++ [r]) h1'
      exact ⟨[r] ++ ext, by rw [h2, List.append_assoc]⟩

/-! Claim theorems. -/

/-- C1 (counterexample): with all four slots filled non-empty, a fifth
option-marker line `(a) new` is not dropped: the parsed record's first
option becomes `A. new`, and the parse differs from the parse of the same
document without that marker line. -/
theorem claim1_counterexample :
    ((parse_lines ["2020".toList, "1. q".toList, "(a) w".toList, "(b) x".toList,
        "(c) y".toList, "(d) z".toList, "(a) new".toList]).map
          (fun e => (e.1, e.2.map Record.options)) =
      [("2020".toList,
        [["A. new".toList, "B. x".toList, "C. y".toList, "D. z".toList]])]) ∧
      parse_lines ["2020".toList, "1. q".toList, "(a) w".toList, "(b) x".toList,
          "(c) y".toList, "(d) z".toList, "(a) new".toList] ≠
        parse_lines ["2020".toList, "1. q".toList, "(a) w".toList, "(b) x".toList,
          "(c) y".toList, "(d) z".toList] :=
  ⟨by decide, by decide⟩

/-- C1 (amended): in a parse state with a year and question open and all four
option slots a-d holding non-empty text, an option-marker line overwrites
the slot of the letter it carries with the newly captured text; the rest of
the per-question state (years, stem lines, question number) is unchanged. -/
theorem claim1_amended {s : PState} {line : Str} {y q : Str} {c : Char} {t : Str}
    (hy : s.current_year = some y) (hq : s.current_qnum = some q)
    (ha : filledOpt s.options 'a' = true) (hb : filledOpt s.options 'b' = true)
    (hc : filledOpt s.options 'c' = true) (hd : filledOpt s.options 'd' = true)
    (hm : matchOpt line = some (c, t)) :
    processLine s line =
      { s with in_options := true, current_opt := some c,
               options := setOptVal c t s.options } := by
  obtain ⟨hcl, hcu, -⟩ := matchOpt_shape hm
  rw [processLine_opt hy hq hm, place_option_overwrite t ha hb hc hd hcl hcu]

/-- C1 (witness): the amended statement at a concrete filled state and the
marker line `(a) new`. -/
theorem claim1_witness :
    processLine
        { years := [], current_year := some ("2020".toList),
          current_qnum := some ("1".toList), q_lines := [],
          options := [('a', "w".toList), ('b', "x".toList), ('c', "y".toList),
            ('d', "z".toList)],
          current_opt := some 'd', in_options := true }
        ("(a) new".toList) =
      { years := [], current_year := some ("2020".toList),
        current_qnum := some ("1".toList), q_lines := [],
        options := [('a', "new".toList), ('b', "x".toList), ('c', "y".toList),
          ('d', "z".toList)],
        current_opt := some 'a', in_options := true } := by
  have hm : matchOpt ("(a) new".toList) = some ('a', "new".toList) := rfl
  rw [claim1_amended rfl rfl (by decide) (by decide) (by decide) (by decide) hm]
  decide

/-- C2: a question-start-shaped line processed while a question is open
under a declared year with no option yet seen (`options` empty, state
`InStem`) does not flush and does not start a new question: the only state
change is the line appended to the stem buffer; and in any later flush of a
stem buffer extending it, the line occurs verbatim inside the finalized stem
string. -/
theorem claim2_instem_literal {s : PState} {line : Str} {y q : Str} {r : Str × Str}
    (hy : s.current_year = some y) (hq : s.current_qnum = some q)
    (hop : s.options = []) (hm : matchQStart line = some r) :
    processLine s line = { s with q_lines := s.q_lines ++ [line] } ∧
      ∀ more : List Str,
        (∀ l ∈ s.q_lines ++ line :: more, rstrip l = l) →
          ∃ pre post,
            finalize_question_text (s.q_lines ++ line :: more) = pre ++ line ++ post := by
  refine ⟨processLine_qstart_instem hy hq hop hm, ?_⟩
  intro more hr
  have hb : (strip line).isEmpty = false := by
    have hne := strip_ne_nil_of_qstart hm
    cases h : (strip line).isEmpty
    · rfl
    · exact absurd h hne
  exact finalize_mem_decomp hr (by simp) hb

/-- C2 (witness): the statement at a concrete `InStem` state and the line
`2. Right to Equality`. -/
theorem claim2_witness :
    (processLine
        { years := [], current_year := some ("2020".toList),
          current_qnum := some ("1".toList), q_lines := ["intro".toList],
          options := [], current_opt := none, in_options := false }
        ("2. Right to Equality".toList) =
      { years := [], current_year := some ("2020".toList),
        current_qnum := some ("1".toList),
        q_lines := ["intro".toList, "2. Right to Equality".toList],
        options := [], current_opt := none, in_options := false }) ∧
      ∃ pre post,
        finalize_question_text ["intro".toList, "2. Right to Equality".toList] =
          pre ++ "2. Right to Equality".toList ++ post := by
  have h := claim2_instem_literal
    (s := { years := [], current_year := some ("2020".toList),
            current_qnum := some ("1".toList), q_lines := ["intro".toList],
            options := [], current_opt := none, in_options := false })
    rfl rfl rfl
    (show matchQStart ("2. Right to Equality".toList) =
      some ("2".toList, "Right to Equality".toList) from rfl)
  exact ⟨h.1, h.2 [] (by decide)⟩

/-- C3 (counterexample): a document repeating question number 1 under one
year yields two records with the same id `POL-2020-01` in that year's list,
so ids are not always pairwise distinct within a year. -/
theorem claim3_counterexample :
    ¬ (∀ e ∈ parse_text ("2020\n1. foo\n(a) x\n1. bar".toList),
        (e.2.map Record.id).Nodup) := by
  decide

/-- C3 (amended): every emitted id has the shape subject-code prefix
`POL-`, the year key of the list it is stored under, a hyphen, and a number
zero-padded to at least two digits; distinctness within a year is not
guaranteed. -/
theorem claim3_amended (t : Str) :
    ∀ e ∈ parse_text t, ∀ rec ∈ e.2, ∃ m : Nat,
      rec.id = "POL-".toList ++ e.1 ++ '-' :: natPad 2 m := by
  intro e he rec hrec
  exact parse_records_prop
    (Q := fun y r => ∃ m : Nat, r.id = "POL-".toList ++ y ++ '-' :: natPad 2 m)
    (fun y n ql op => ⟨digitsToNat n, rfl⟩) (splitlines t) e he rec hrec

/-- C3 (witness): the amended statement evaluated on a one-question
document. -/
theorem claim3_witness :
    ((("2020".toList,
        [{ id := "POL-2020-01".toList, question := "q".toList,
           options := ["A. ".toList, "B. ".toList, "C. ".toList, "D. ".toList],
           answer := [], explanation := [], difficulty := ['M'] }]) :
        Str × List Record) ∈
      parse_text ("2020\n1. q".toList)) ∧
      ∃ m : Nat, ("POL-2020-01".toList : Str) =
        "POL-".toList ++ "2020".toList ++ '-' :: natPad 2 m := by
  refine ⟨by decide, ?_⟩
  have h := claim3_amended ("2020\n1. q".toList)
    ((("2020".toList,
        [{ id := "POL-2020-01".toList, question := "q".toList,
           options := ["A. ".toList, "B. ".toList, "C. ".toList, "D. ".toList],
           answer := [], explanation := [], difficulty := ['M'] }]) :
        Str × List Record)) (by decide)
    ({ id := "POL-2020-01".toList, question := "q".toList,
       options := ["A. ".toList, "B. ".toList, "C. ".toList, "D. ".toList],
       answer := [], explanation := [], difficulty := ['M'] }) (by decide)
  exact h

/-- C4: from a state with an open question and no options yet, the two
marker lines `(a) cats` then `(a) dogs` leave the slots
`a = cats, b = dogs` (the second text displaced to the first free slot, not
overwriting), and flushing produces a record with options
`A. cats / B. dogs / C. / D. ` appended under the current year. -/
theorem claim4_duplicate_displaced {s : PState} {y q : Str}
    (hy : s.current_year = some y) (hq : s.current_qnum = some q)
    (hop : s.options = []) :
    (processLine (processLine s ("(a) cats".toList)) ("(a) dogs".toList)).options =
        [('a', "cats".toList), ('b', "dogs".toList)] ∧
      ∃ rec,
        (flush_question (processLine (processLine s ("(a) cats".toList))
            ("(a) dogs".toList))).years = appendRecord s.years y rec ∧
          rec.options =
            ["A. cats".toList, "B. dogs".toList, "C. ".toList, "D. ".toList] := by
  have h1 : matchOpt ("(a) cats".toList) = some ('a', "cats".toList) := rfl
  have h2 : matchOpt ("(a) dogs".toList) = some ('a', "dogs".toList) := rfl
  have e1 : processLine s ("(a) cats".toList) =
      { s with in_options := true, current_opt := some 'a',
               options := [('a', "cats".toList)] } := by
    have hpl : place_option [] 'a' ("cats".toList) = [('a', "cats".toList)] := by decide
    rw [processLine_opt hy hq h1, hop, hpl]
  have e2 : processLine
      { s with in_options := true, current_opt := some 'a',
               options := [('a', "cats".toList)] } ("(a) dogs".toList) =
      { s with in_options := true, current_opt := some 'a',
               options := [('a', "cats".toList), ('b', "dogs".toList)] } := by
    refine (processLine_opt (y := y) (q := q) ?_ ?_ h2).trans ?_
    · exact hy
    · exact hq
    · exact rfl
  rw [e1, e2]
  refine ⟨rfl, mkRecord y q s.q_lines
    [('a', "cats".toList), ('b', "dogs".toList)], ?_, rfl⟩
  simp [flush_question, hy, hq]

/-- C4 (witness): the statement at a concrete state for year 2020,
question 1. -/
theorem claim4_witness :
    (processLine (processLine
          { years := [], current_year := some ("2020".toList),
            current_qnum := some ("1".toList), q_lines := ["q".toList],
            options := [], current_opt := none, in_options := false }
          ("(a) cats".toList)) ("(a) dogs".toList)).options =
        [('a', "cats".toList), ('b', "dogs".toList)] ∧
      ∃ rec,
        (flush_question (processLine (processLine
            { years := [], current_year := some ("2020".toList),
              current_qnum := some ("1".toList), q_lines := ["q".toList],
              options := [], current_opt := none, in_options := false }
            ("(a) cats".toList)) ("(a) dogs".toList))).years =
          appendRecord [] ("2020".toList) rec ∧
          rec.options =
            ["A. cats".toList, "B. dogs".toList, "C. ".toList, "D. ".toList] :=
  claim4_duplicate_displaced rfl rfl rfl

/-- C5: every question record emitted by `parse_text` has exactly four
options, beginning in order with `A. `, `B. `, `C. `, `D. `; an unfilled
slot is emitted as the bare prefix, never omitted. -/
theorem claim5_options_shape (t : Str) :
    ∀ e ∈ parse_text t, ∀ rec ∈ e.2,
      ∃ ta tb tc td, rec.options =
        ["A. ".toList ++ ta, "B. ".toList ++ tb, "C. ".toList ++ tc,
          "D. ".toList ++ td] := by
  intro e he rec hrec
  refine parse_records_prop
    (Q := fun y r => ∃ ta tb tc td, r.options =
      ["A. ".toList ++ ta, "B. ".toList ++ tb, "C. ".toList ++ tc,
        "D. ".toList ++ td])
    (fun y n ql op => ?_) (splitlines t) e he rec hrec
  refine ⟨normalize_inline (getOpt op 'a'), normalize_inline (getOpt op 'b'),
    normalize_inline (getOpt op 'c'), normalize_inline (getOpt op 'd'), ?_⟩
  show mkOptList op = _
  simp [mkOptList, renderOpt_eq]

/-- C5 (witness): the statement evaluated on a document with one partially
filled question. -/
theorem claim5_witness :
    ((("2020".toList,
        [{ id := "POL-2020-01".toList, question := "q".toList,
           options := ["A. x".toList, "B. ".toList, "C. ".toList, "D. ".toList],
           answer := [], explanation := [], difficulty := ['M'] }]) :
        Str × List Record) ∈
      parse_text ("2020\n1. q\n(a) x".toList)) ∧
      ∃ ta tb tc td,
        (["A. x".toList, "B. ".toList, "C. ".toList, "D. ".toList] : List Str) =
          ["A. ".toList ++ ta, "B. ".toList ++ tb, "C. ".toList ++ tc,
            "D. ".toList ++ td] := by
  refine ⟨by decide, ?_⟩
  have h := claim5_options_shape ("2020\n1. q\n(a) x".toList)
    ((("2020".toList,
        [{ id := "POL-2020-01".toList, question := "q".toList,
           options := ["A. x".toList, "B. ".toList, "C. ".toList, "D. ".toList],
           answer := [], explanation := [], difficulty := ['M'] }]) :
        Str × List Record)) (by decide)
    ({ id := "POL-2020-01".toList, question := "q".toList,
       options := ["A. x".toList, "B. ".toList, "C. ".toList, "D. ".toList],
       answer := [], explanation := [], difficulty := ['M'] }) (by decide)
  exact h

/-- C6: on right-stripped line buffers (which is all the parser ever
accumulates, third conjunct) the source's stem finalization agrees with the
spec description (trim blank edges, collapse blank runs, join with newline),
and the spec's worked example evaluates as stated. -/
theorem claim6_finalize_spec :
    (∀ lines : List Str, (∀ l ∈ lines, rstrip l = l) →
        finalize_question_text lines = finalizeSpec lines) ∧
      finalize_question_text
          [[], "Consider the following:".toList, [], "1. Pointer A".toList,
            "2. Pointer B".toList, []] =
        "Consider the following:\n\n1. Pointer A\n2. Pointer B".toList ∧
      ∀ lines : List Str, ∀ l ∈ (List.foldl step initState lines).q_lines,
        rstrip l = l := by
  refine ⟨fun lines h => finalize_eq_spec h, by decide, ?_⟩
  intro lines
  exact q_lines_rstripped lines initState (by simp [initState])

/-- C6 (witness): the refinement equation applied to the spec's worked
example. -/
theorem claim6_witness :
    finalize_question_text
        [[], "Consider the following:".toList, [], "1. Pointer A".toList,
          "2. Pointer B".toList, []] =
      finalizeSpec
        [[], "Consider the following:".toList, [], "1. Pointer A".toList,
          "2. Pointer B".toList, []] :=
  claim6_finalize_spec.1 _ (by decide)

/-- C7: `parse_text` is a total function: every input string yields a
year-to-questions mapping; and each parser step either leaves the output
mapping untouched or flushes the currently open question, so no line can
fail. -/
theorem claim7_total_parse :
    (∀ t : Str, ∃ m, parse_text t = m) ∧
      ∀ (s : PState) (raw : Str),
        (step s raw).years = s.years ∨
          ∃ y n, s.current_year = some y ∧ s.current_qnum = some n ∧
            (step s raw).years =
              appendRecord s.years y (mkRecord y n s.q_lines s.options) := by
  refine ⟨fun t => ⟨_, rfl⟩, fun s raw => ?_⟩
  rcases step_years s raw with h | h
  · rcases flush_years s with h2 | ⟨y, n, hy, hn, h2⟩
    · left
      rw [h, h2]
    · right
      exact ⟨y, n, hy, hn, by rw [h, h2]⟩
  · left
    exact h

/-- C8: with duplicate-free year keys, the re-indexer equals the map that
gives every question the id `ENVI-<year>-<counter>` where the counter
(zero-padded to at least three digits, starting at 1) follows the
descending-sorted key order and never resets; the visit order is sorted
descending and is a permutation of the keys. -/
theorem claim8_reindex_global {m : List (Str × List Record)}
    (hnd : (m.map Prod.fst).Nodup) :
    reindex_polity_questions m =
        m.map (fun e =>
          (e.1, assignIds e.1 (startOf m 1 (sortDescStr (m.map Prod.fst)) e.1) e.2)) ∧
      List.Sorted (fun a b => strLt a b = false) (sortDescStr (m.map Prod.fst)) ∧
      (sortDescStr (m.map Prod.fst)).Perm (m.map Prod.fst) :=
  ⟨reindex_eq hnd, List.sorted_insertionSort _ _, List.perm_insertionSort _ _⟩

/-- C8 (witness): the spec's example `2020 ↦ [q1, q2], 2019 ↦ [q3]` receives
ids `ENVI-2020-001`, `ENVI-2020-002`, `ENVI-2019-003`. -/
theorem claim8_witness :
    (reindex_polity_questions
        [("2020".toList,
          [{ id := "a".toList, question := "q1".toList, options := [], answer := [],
             explanation := [], difficulty := ['M'] : Record},
           { id := "b".toList, question := "q2".toList, options := [], answer := [],
             explanation := [], difficulty := ['M'] : Record}]),
         ("2019".toList,
          [{ id := "c".toList, question := "q3".toList, options := [], answer := [],
             explanation := [], difficulty := ['M'] : Record}])] =
      [("2020".toList,
        [{ id := "ENVI-2020-001".toList, question := "q1".toList, options := [],
           answer := [], explanation := [], difficulty := ['M'] : Record},
         { id := "ENVI-2020-002".toList, question := "q2".toList, options := [],
           answer := [], explanation := [], difficulty := ['M'] : Record}]),
       ("2019".toList,
        [{ id := "ENVI-2019-003".toList, question := "q3".toList, options := [],
           answer := [], explanation := [], difficulty := ['M'] : Record}])]) := by
  have h := (claim8_reindex_global
    (m := [("2020".toList,
          [{ id := "a".toList, question := "q1".toList, options := [], answer := [],
             explanation := [], difficulty := ['M'] : Record},
           { id := "b".toList, question := "q2".toList, options := [], answer := [],
             explanation := [], difficulty := ['M'] : Record}]),
         ("2019".toList,
          [{ id := "c".toList, question := "q3".toList, options := [], answer := [],
             explanation := [], difficulty := ['M'] : Record}])])
    (by decide)).1
  rw [h]
  decide

/-- C9: the re-indexer is a frame transformation: output and input mappings
have the same keys in the same order, the same number of questions per year
in the same order, and every question agrees with its original on all
fields except possibly `id`. -/
theorem claim9_frame (m : List (Str × List Record)) :
    yearsRel sameExceptId m (reindex_polity_questions m) :=
  foldl_stepYear_rel _ m 1

/-- C10: year keys in the output mapping are always pairwise distinct
(first conjunct), and questions flushed under a later occurrence of a year
heading are appended to the end of that year's single list, after the
questions from earlier occurrences, in parse order — universally: every
flush appends its record at the end of exactly its year's list (second
conjunct), each parser step either leaves a year's list unchanged or
appends exactly one record at its end (third conjunct), and whatever a
year's list holds after any prefix of the input persists as a prefix of
that year's final list however the input continues (fourth conjunct); the
two-occurrence document shows the resulting merged list concretely. -/
theorem claim10_year_merge :
    (∀ lines : List Str, ((parse_lines lines).map Prod.fst).Nodup) ∧
      (∀ (ys : List (Str × List Record)) (y : Str) (r : Record),
        lookupY (appendRecord ys y r) y = some ((lookupY ys y).getD [] ++ [r]) ∧
          ∀ y', y' ≠ y → lookupY (appendRecord ys y r) y' = lookupY ys y') ∧
      (∀ (s : PState) (raw : Str) (y : Str),
        lookupY (step s raw).years y = lookupY s.years y ∨
          ∃ r, lookupY (step s raw).years y =
            some ((lookupY s.years y).getD [] ++ [r])) ∧
      (∀ (lines more : List Str) (y : Str) (qs : List Record),
        lookupY (List.foldl step initState lines).years y = some qs →
          ∃ ext, lookupY (parse_lines (lines ++ more)) y = some (qs ++ ext)) ∧
      parse_lines ["2020".toList, "1. q1".toList, "(a) x".toList, "2019".toList,
          "1. q3".toList, "2020".toList, "2. q2".toList] =
        [("2020".toList,
          [{ id := "POL-2020-01".toList, question := "q1".toList,
             options := ["A. x".toList, "B. ".toList, "C. ".toList, "D. ".toList],
             answer := [], explanation := [], difficulty := ['M'] : Record},
           { id := "POL-2020-02".toList, question := "q2".toList,
             options := ["A. ".toList, "B. ".toList, "C. ".toList, "D. ".toList],
             answer := [], explanation := [], difficulty := ['M'] : Record}]),
         ("2019".toList,
          [{ id := "POL-2019-01".toList, question := "q3".toList,
             options := ["A. ".toList, "B. ".toList, "C. ".toList, "D. ".toList],
             answer := [], explanation := [], difficulty := ['M'] : Record}])] := by
  refine ⟨?_, ?_, ?_, ?_, by decide⟩
  · intro lines
    exact parse_lines_invariant (P := fun ys => (ys.map Prod.fst).Nodup)
      (fun ys y n ql op h => nodup_keys_appendRecord h y (mkRecord y n ql op))
      (by simp) lines
  · intro ys y r
    exact ⟨lookupY_appendRecord_self ys y r,
      fun y' hne => lookupY_appendRecord_ne ys y y' hne r⟩
  · exact lookupY_step_extends
  · intro lines more y qs h
    unfold parse_lines
    rw [List.foldl_append]
    obtain ⟨e1, h1⟩ := lookupY_foldl_extends more (List.foldl step initState lines) y qs h
    obtain ⟨e2, h2⟩ := lookupY_flush_extends _ y h1
    exact ⟨e1 ++ e2, by rw [h2, List.append_assoc]⟩

/-- C10 (witness): after the prefix ending at the `2019` heading the 2020
list holds exactly the first flushed question, and continuing with the
second `2020` occurrence extends that list on the right. -/
theorem claim10_witness :
    (lookupY (List.foldl step initState
          ["2020".toList, "1. q1".toList, "(a) x".toList, "2019".toList]).years
        ("2020".toList) =
      some [{ id := "POL-2020-01".toList, question := "q1".toList,
              options := ["A. x".toList, "B. ".toList, "C. ".toList, "D. ".toList],
              answer := [], explanation := [], difficulty := ['M'] }]) ∧
      ∃ ext, lookupY (parse_lines
          (["2020".toList, "1. q1".toList, "(a) x".toList, "2019".toList] ++
            ["1. q3".toList, "2020".toList, "2. q2".toList])) ("2020".toList) =
        some ([{ id := "POL-2020-01".toList, question := "q1".toList,
                 options := ["A. x".toList, "B. ".toList, "C. ".toList, "D. ".toList],
                 answer := [], explanation := [], difficulty := ['M'] }] ++ ext) := by
  refine ⟨by decide, ?_⟩
  exact claim10_year_merge.2.2.2.1 _ _ _ _ (by decide)

end Convert
